import Mathlib

/-!
Verification development for the `scm-extraction` repository.

The Python sources are shallowly embedded:
* `CausalGraph` from `core/types.py` (variables list, adjacency matrix, metadata),
  with its post-construction shape check modelled by the fallible constructor
  `CausalGraph.mk?`;
* `from_dependencies` / `to_dependencies` / `get_edges` from `core/types.py`,
  with the numpy adjacency matrix modelled as `List (List Bool)`;
* the evaluation metrics from `evaluation/metrics.py`, with Python floats
  modelled as exact rationals and Python edge sets as `Finset`;
* the AST visitor from `extractors/ast_extractor.py`, with the fragment of the
  Python AST it inspects modelled by `PyExpr` / `PyStmt`.
-/

/-- Last index of `v` in `xs`. This mirrors the Python dict comprehension
`var_to_idx = {v: i for i, v in enumerate(variables)}`, where a later
occurrence of a duplicated name overwrites an earlier one. -/
def lastIdxOf? (xs : List String) (v : String) : Option Nat :=
  match xs with
  | [] => none
  | x :: rest =>
    match lastIdxOf? rest v with
    | some i => some (i + 1)
    | none => if x = v then some 0 else none

/-- The `n × n` all-zero adjacency matrix, `np.zeros((n, n), dtype=np.int8)`. -/
def zeroMatrix (n : Nat) : List (List Bool) :=
  List.replicate n (List.replicate n false)

/-- Read entry `(i, j)` of a matrix; out-of-range reads default to `false`. -/
def getEntry (m : List (List Bool)) (i j : Nat) : Bool :=
  (m.getD i []).getD j false

/-- Write `true` at entry `(i, j)`, `adj[i, j] = 1`. -/
def setEntry (m : List (List Bool)) (i j : Nat) : List (List Bool) :=
  m.set i ((m.getD i []).set j true)

/-- The matrix has numpy shape `(n, n)`: `n` rows, each of length `n`. -/
def MatrixShaped (n : Nat) (m : List (List Bool)) : Prop :=
  m.length = n ∧ ∀ row ∈ m, row.length = n

instance (n : Nat) (m : List (List Bool)) : Decidable (MatrixShaped n m) := by
  unfold MatrixShaped; infer_instance

/-- `CausalGraph` from `core/types.py`: ordered variable names plus a binary
adjacency matrix where entry `(i, j)` set means variable `i` causes variable
`j`, plus free-form metadata. -/
structure CausalGraph where
  variables' : List String
  adjacency_matrix : List (List Bool)
  metadata : List (String × String)
deriving DecidableEq

/-- Construction with the `__post_init__` validation of `core/types.py`: the
shape of the adjacency matrix must equal `(n, n)` for `n` variables, otherwise
a `ValueError` is raised; an absent metadata dict is normalised to empty. -/
def CausalGraph.mk? (variables' : List String) (adjacency_matrix : List (List Bool)) :
    Except String CausalGraph :=
  if MatrixShaped variables'.length adjacency_matrix then
    Except.ok ⟨variables', adjacency_matrix, []⟩
  else
    Except.error "Adjacency matrix shape does not match variables"

/-- All names occurring in a dependency mapping: its keys and all parents.
Mirrors `all_vars = set(dependencies.keys()); all_vars.update(parents)`. -/
def allVarsOf (dependencies : List (String × List String)) : List String :=
  dependencies.map Prod.fst ++ (dependencies.map Prod.snd).flatten

/-- The variable list chosen by `CausalGraph.from_dependencies`: the explicit
list when supplied, otherwise the sorted deduplicated union of the mapping's
keys and parents (`sorted(all_vars)`). -/
def depVars (dependencies : List (String × List String))
    (variablesOpt : Option (List String)) : List String :=
  match variablesOpt with
  | some vs => vs
  | none => List.insertionSort (fun a b => a ≤ b) (allVarsOf dependencies).dedup

/-- Inner loop body of `from_dependencies`: `if parent in var_to_idx:
adj[i, j] = 1`, with column `j` fixed by the enclosing target. -/
def setParent (vars : List String) (j : Nat) (m2 : List (List Bool)) (p : String) :
    List (List Bool) :=
  match lastIdxOf? vars p with
  | some i => setEntry m2 i j
  | none => m2

/-- Outer loop body of `from_dependencies`: skip a target absent from
`var_to_idx`, otherwise run the parent loop on its column. -/
def addTargetRow (vars : List String) (m : List (List Bool))
    (td : String × List String) : List (List Bool) :=
  match lastIdxOf? vars td.1 with
  | none => m
  | some j => td.2.foldl (setParent vars j) m

/-- The nested loop of `from_dependencies`: for each `(target, parents)` entry
whose target is indexed, set `adj[i, j] = 1` for every indexed parent. -/
def depAdj (dependencies : List (String × List String)) (vars : List String) :
    List (List Bool) :=
  dependencies.foldl (addTargetRow vars) (zeroMatrix vars.length)

/-- Membership of an edge `(parent `p`, target `t`)` in the edge content of a
dependency mapping: some entry for `t` lists `p` among its parents. -/
def memDep (D : List (String × List String)) (t p : String) : Prop :=
  ∃ ps, (t, ps) ∈ D ∧ p ∈ ps

/-- `CausalGraph.from_dependencies` from `core/types.py`. -/
def CausalGraph.from_dependencies (dependencies : List (String × List String))
    (variablesOpt : Option (List String)) : Except String CausalGraph :=
  CausalGraph.mk? (depVars dependencies variablesOpt)
    (depAdj dependencies (depVars dependencies variablesOpt))

/-- The `parents` list built by `to_dependencies` for column `j`: the names of
the rows `i` with `adj[i, j] == 1`, in row order. -/
def colParents (g : CausalGraph) (j : Nat) : List String :=
  (List.range g.variables'.length).filterMap (fun i =>
    if getEntry g.adjacency_matrix i j then some (g.variables'.getD i "") else none)

/-- `CausalGraph.to_dependencies`: for each column `j` collect the rows `i`
with `adj[i, j] == 1` as parents and record the entry when non-empty. -/
def CausalGraph.to_dependencies (g : CausalGraph) : List (String × List String) :=
  (List.range g.variables'.length).filterMap (fun j =>
    if (colParents g j).isEmpty then none
    else some (g.variables'.getD j "", colParents g j))

/-- `CausalGraph.get_edges`: the row-major list of `(parent, child)` name
pairs with `adj[i, j] == 1`. -/
def CausalGraph.get_edges (g : CausalGraph) : List (String × String) :=
  (List.range g.variables'.length).flatMap (fun i =>
    (List.range g.variables'.length).filterMap (fun j =>
      if getEntry g.adjacency_matrix i j then
        some (g.variables'.getD i "", g.variables'.getD j "")
      else none))

/-- The edge set of a graph, `set(graph.get_edges())` in `_get_edge_sets`. -/
def edgeSet (g : CausalGraph) : Finset (String × String) :=
  g.get_edges.toFinset

/-- `precision` from `evaluation/metrics.py` (floats modelled as rationals). -/
def precision (predicted ground_truth : CausalGraph) : ℚ :=
  if (edgeSet predicted).card = 0 then
    if (edgeSet ground_truth).card = 0 then 1 else 0
  else
    ((edgeSet predicted ∩ edgeSet ground_truth).card : ℚ) / (edgeSet predicted).card

/-- `recall` from `evaluation/metrics.py`. -/
def recall' (predicted ground_truth : CausalGraph) : ℚ :=
  if (edgeSet ground_truth).card = 0 then
    if (edgeSet predicted).card = 0 then 1 else 0
  else
    ((edgeSet predicted ∩ edgeSet ground_truth).card : ℚ) / (edgeSet ground_truth).card

/-- `f1_score` from `evaluation/metrics.py`. -/
def f1_score (predicted ground_truth : CausalGraph) : ℚ :=
  if precision predicted ground_truth + recall' predicted ground_truth = 0 then 0
  else
    2 * (precision predicted ground_truth * recall' predicted ground_truth) /
      (precision predicted ground_truth + recall' predicted ground_truth)

/-- `structural_hamming_distance` from `evaluation/metrics.py`:
false positives plus false negatives over the two edge sets. -/
def structural_hamming_distance (predicted ground_truth : CausalGraph) : Nat :=
  (edgeSet predicted \ edgeSet ground_truth).card +
    (edgeSet ground_truth \ edgeSet predicted).card

/-- Two-variable graph with the single edge `A → B`. -/
def gAB : CausalGraph := ⟨["A", "B"], [[false, true], [false, false]], []⟩

/-- Two-variable graph with the single reversed edge `B → A`. -/
def gBA : CausalGraph := ⟨["A", "B"], [[false, false], [true, false]], []⟩

/-- The graph with no variables and no edges. -/
def gEmpty : CausalGraph := ⟨[], [], []⟩

/-- The fragment of the Python expression AST inspected by
`CausalASTVisitor`: name references, attribute access, calls, binary
operations, constants and list literals. -/
inductive PyExpr where
  | name : String → PyExpr
  | attr : PyExpr → String → PyExpr
  | call : PyExpr → List PyExpr → PyExpr
  | binop : PyExpr → PyExpr → PyExpr
  | const : PyExpr
  | listLit : List PyExpr → PyExpr

/-- The statements inspected by the visitor: assignments and bare
expression statements (which is how an `append` call appears). -/
inductive PyStmt where
  | assign : List PyExpr → PyExpr → PyStmt
  | exprStmt : PyExpr → PyStmt

mutual

/-- The names collected by `ast.walk` in `_get_referenced_names`: every
`Name.id` and every `Attribute.attr` in the expression subtree. -/
def walkNames : PyExpr → List String
  | .name id => [id]
  | .attr v a => a :: walkNames v
  | .call f args => walkNames f ++ walkNamesList args
  | .binop l r => walkNames l ++ walkNames r
  | .const => []
  | .listLit es => walkNamesList es

/-- Names collected from a list of sub-expressions. -/
def walkNamesList : List PyExpr → List String
  | [] => []
  | e :: es => walkNames e ++ walkNamesList es

end

/-- Python truthiness of the optional filter set: `None` and the empty set
are both falsy; `if self.variables_of_interest:` in the source. -/
def truthyFilter : Option (List String) → Bool
  | none => false
  | some l => !l.isEmpty

/-- The elements of the optional filter set (empty for `None`). -/
def filterElems : Option (List String) → List String
  | none => []
  | some l => l

/-- `_get_referenced_names`: walk the expression, filter by the variables of
interest when the filter is truthy, and deduplicate (`list(set(names))`). -/
def getReferencedNames (filt : Option (List String)) (e : PyExpr) : List String :=
  if truthyFilter filt then
    ((walkNames e).filter (fun n => decide (n ∈ filterElems filt))).dedup
  else
    (walkNames e).dedup

/-- Lookup in the visitor's `self.dependencies` dict. -/
def lookupDep : List (String × List String) → String → Option (List String)
  | [], _ => none
  | (k, v) :: rest, t => if k = t then some v else lookupDep rest t

/-- In-place value update of an existing key of the dict, preserving
insertion order. -/
def updateDep : List (String × List String) → String → List String →
    List (String × List String)
  | [], _, _ => []
  | (k, v) :: rest, t, nv =>
    if k = t then (k, nv) :: rest else (k, v) :: updateDep rest t nv

/-- `_add_dependency`: drop the self-reference, do nothing when the filtered
list is empty, otherwise union into an existing entry or append a new one. -/
def addDependency (deps : List (String × List String)) (target : String)
    (ds : List String) : List (String × List String) :=
  let ds2 := ds.filter (fun d => decide (d ≠ target))
  if ds2.isEmpty then deps
  else
    match lookupDep deps target with
    | some old => updateDep deps target ((old ++ ds2).dedup)
    | none => deps ++ [(target, ds2)]

/-- The `visit_Call` append recognition: a call whose callee is an attribute
named exactly `append` on a plain name is an implicit assignment to that
name, guarded by `variables_of_interest is None or target_name in ...`. -/
def appendCallUpdate (filt : Option (List String))
    (deps : List (String × List String)) (f : PyExpr) (args : List PyExpr) :
    List (String × List String) :=
  match f with
  | .attr (.name owner) a =>
    if a = "append" then
      if filt = none ∨ owner ∈ filterElems filt then
        addDependency deps owner
          (match args with
           | [] => []
           | a0 :: _ => getReferencedNames filt a0)
      else deps
    else deps
  | _ => deps

mutual

/-- Expression traversal of the visitor: `visit_Call` fires on every call
node (recording an `append` before its children are visited) and every other
expression node is handled by `generic_visit`, which only recurses. -/
def visitExpr (filt : Option (List String)) :
    List (String × List String) → PyExpr → List (String × List String)
  | deps, .name _ => deps
  | deps, .const => deps
  | deps, .attr v _ => visitExpr filt deps v
  | deps, .binop l r => visitExpr filt (visitExpr filt deps l) r
  | deps, .listLit es => visitExprList filt deps es
  | deps, .call f args =>
    visitExprList filt (visitExpr filt (appendCallUpdate filt deps f args) f) args

/-- Traversal of a list of child expressions, left to right. -/
def visitExprList (filt : Option (List String)) :
    List (String × List String) → List PyExpr → List (String × List String)
  | deps, [] => deps
  | deps, e :: es => visitExprList filt (visitExpr filt deps e) es

end

/-- Resolution of an assignment target to a name in `visit_Assign`: a plain
name gives its identifier, an attribute access gives its trailing attribute,
anything else is not a recordable target. -/
def targetNameOf : PyExpr → Option String
  | .name id => some id
  | .attr _ a => some a
  | _ => none

/-- `generic_visit` on an `Assign` node: visit the target expressions and
then the value expression. -/
def genericVisitAssign (filt : Option (List String))
    (deps : List (String × List String)) (targets : List PyExpr)
    (value : PyExpr) : List (String × List String) :=
  visitExpr filt (visitExprList filt deps targets) value

/-- `visit_Assign` and dispatch on a statement: record the first target when
it resolves to a name passing the (truthy) filter, then generic-visit. -/
def visitStmt (filt : Option (List String))
    (deps : List (String × List String)) : PyStmt → List (String × List String)
  | .assign targets value =>
    match targets.head? with
    | none => genericVisitAssign filt deps targets value
    | some tgt =>
      match targetNameOf tgt with
      | none => genericVisitAssign filt deps targets value
      | some target_name =>
        if truthyFilter filt ∧ target_name ∉ filterElems filt then
          genericVisitAssign filt deps targets value
        else
          genericVisitAssign filt
            (addDependency deps target_name (getReferencedNames filt value))
            targets value
  | .exprStmt e => visitExpr filt deps e

/-- Visiting a parsed module: fold the statement visitor over the program,
starting from the empty dependency dict. -/
def visitModule (filt : Option (List String)) (stmts : List PyStmt) :
    List (String × List String) :=
  stmts.foldl (visitStmt filt) []

/-- `ASTExtractor.extract_from_string`: visit the parsed tree, then build the
graph, passing `sorted(variables)` as the ordering when the filter is truthy
and inferring the ordering otherwise. -/
def extract_from_string (source : List PyStmt)
    (variablesOpt : Option (List String)) : Except String CausalGraph :=
  CausalGraph.from_dependencies (visitModule variablesOpt source)
    (if truthyFilter variablesOpt then
      some (List.insertionSort (fun a b => a ≤ b) (filterElems variablesOpt))
    else none)

/-- The callee is not an `append` attribute on a plain name, so `visit_Call`
treats the call identically under every filter. -/
def callHeadNoAppend : PyExpr → Bool
  | .attr (.name _) a => decide (a ≠ "append")
  | _ => true

mutual

/-- No subterm is an `append` call on a plain name (the only call shape on
which `visit_Call` distinguishes an empty filter from no filter). -/
def exprNoAppend : PyExpr → Bool
  | .name _ => true
  | .const => true
  | .attr v _ => exprNoAppend v
  | .binop l r => exprNoAppend l && exprNoAppend r
  | .listLit es => exprListNoAppend es
  | .call f args => callHeadNoAppend f && exprNoAppend f && exprListNoAppend args

/-- List version of `exprNoAppend`. -/
def exprListNoAppend : List PyExpr → Bool
  | [] => true
  | e :: es => exprNoAppend e && exprListNoAppend es

end

/-- Statement version of `exprNoAppend`. -/
def stmtNoAppend : PyStmt → Bool
  | .assign ts v => exprListNoAppend ts && exprNoAppend v
  | .exprStmt e => exprNoAppend e

/-- The visitor invariant behind the no-self-loop policy: no entry of the
dependency dict lists its own target among its parents. -/
def SelfFree (deps : List (String × List String)) : Prop :=
  ∀ t ps, (t, ps) ∈ deps → t ∉ ps

/-- Scenario 3 source, `values = []` then `values.append(x + y)`. -/
def scenario3Src : List PyStmt :=
  [.assign [.name "values"] (.listLit []),
   .exprStmt (.call (.attr (.name "values") "append")
     [.binop (.name "x") (.name "y")])]

/-- Scenario 3 expected graph: `x → values` and `y → values`. -/
def scenario3Graph : CausalGraph :=
  ⟨["values", "x", "y"],
   [[false, false, false], [true, false, false], [true, false, false]], []⟩

/-- One-assignment source `x = a`. -/
def assignDemoSrc : List PyStmt := [.assign [.name "x"] (.name "a")]

/-- Graph extracted from `x = a` when no filtering applies. -/
def assignDemoGraph : CausalGraph :=
  ⟨["a", "x"], [[false, true], [false, false]], []⟩

/-- Source consisting only of `values.append(x + y)`. -/
def appendOnlySrc : List PyStmt :=
  [.exprStmt (.call (.attr (.name "values") "append")
     [.binop (.name "x") (.name "y")])]

/-- Source `x = x + 1`. -/
def xSelfSrc : List PyStmt :=
  [.assign [.name "x"] (.binop (.name "x") .const)]

/-- Graph extracted from `x = x + 1` with filter `{x}`: one isolated node. -/
def xSelfGraph : CausalGraph := ⟨["x"], [[false]], []⟩

/-- C3: comparing any graph against itself, including the empty graph, gives
precision, recall and F1 equal to 1 and structural Hamming distance 0. -/
theorem c3_self_consistency (G : CausalGraph) :
    precision G G = 1 ∧ recall' G G = 1 ∧ f1_score G G = 1 ∧
      structural_hamming_distance G G = 0 := by
  have hp : precision G G = 1 := by
    unfold precision
    by_cases h : (edgeSet G).card = 0
    · simp [h]
    · rw [if_neg h, Finset.inter_self]
      exact div_self (by exact_mod_cast h)
  have hr : recall' G G = 1 := by
    unfold recall'
    by_cases h : (edgeSet G).card = 0
    · simp [h]
    · rw [if_neg h, Finset.inter_self]
      exact div_self (by exact_mod_cast h)
  refine ⟨hp, hr, ?_, ?_⟩
  · unfold f1_score
    rw [hp, hr]
    norm_num
  · unfold structural_hamming_distance
    simp

/-- C4: precision is the intersection size over the predicted edge-set size
when the predicted edge set is non-empty, and otherwise 1 or 0 according to
whether the ground-truth edge set is empty. -/
theorem c4_precision_formula (predicted ground_truth : CausalGraph) :
    ((edgeSet predicted).card ≠ 0 →
      precision predicted ground_truth =
        ((edgeSet predicted ∩ edgeSet ground_truth).card : ℚ) /
          (edgeSet predicted).card) ∧
    ((edgeSet predicted).card = 0 →
      precision predicted ground_truth =
        if (edgeSet ground_truth).card = 0 then 1 else 0) := by
  constructor
  · intro h
    unfold precision
    rw [if_neg h]
  · intro h
    unfold precision
    rw [if_pos h]

/-- Witness for C4 at concrete graphs on both branches. -/
theorem c4_witness :
    (precision gAB gBA =
      ((edgeSet gAB ∩ edgeSet gBA).card : ℚ) / (edgeSet gAB).card) ∧
    (precision gEmpty gAB = if (edgeSet gAB).card = 0 then 1 else 0) :=
  ⟨(c4_precision_formula gAB gBA).1 (by decide),
   (c4_precision_formula gEmpty gAB).2 (by decide)⟩

/-- C5: structural Hamming distance is the (natural-number) count of false
positives plus false negatives over name-labelled edge sets, and a reversed
edge contributes 2, not 1. -/
theorem c5_shd_formula :
    (∀ predicted ground_truth : CausalGraph,
      structural_hamming_distance predicted ground_truth =
        (edgeSet predicted \ edgeSet ground_truth).card +
          (edgeSet ground_truth \ edgeSet predicted).card) ∧
    structural_hamming_distance gAB gBA = 2 :=
  ⟨fun _ _ => rfl, by decide⟩

/-- An index returned by `lastIdxOf?` is in range. -/
theorem lastIdxOf?_lt {v : String} : ∀ {xs : List String} {i : Nat},
    lastIdxOf? xs v = some i → i < xs.length
  | [], i, h => by simp [lastIdxOf?] at h
  | x :: rest, i, h => by
    rw [lastIdxOf?] at h
    cases hrest : lastIdxOf? rest v with
    | some k =>
      rw [hrest] at h
      cases h
      exact Nat.succ_lt_succ (lastIdxOf?_lt hrest)
    | none =>
      rw [hrest] at h
      by_cases hx : x = v
      · rw [if_pos hx] at h
        cases h
        exact Nat.succ_pos _
      · rw [if_neg hx] at h
        cases h

/-- The element at an index returned by `lastIdxOf?` is the searched name. -/
theorem lastIdxOf?_getD {v : String} : ∀ {xs : List String} {i : Nat},
    lastIdxOf? xs v = some i → xs.getD i "" = v
  | [], i, h => by simp [lastIdxOf?] at h
  | x :: rest, i, h => by
    rw [lastIdxOf?] at h
    cases hrest : lastIdxOf? rest v with
    | some k =>
      rw [hrest] at h
      cases h
      simpa using lastIdxOf?_getD hrest
    | none =>
      rw [hrest] at h
      by_cases hx : x = v
      · rw [if_pos hx] at h
        cases h
        simpa using hx
      · rw [if_neg hx] at h
        cases h

/-- `lastIdxOf?` finds every member. -/
theorem lastIdxOf?_of_mem {v : String} : ∀ {xs : List String},
    v ∈ xs → ∃ i, lastIdxOf? xs v = some i
  | [], h => by simp at h
  | x :: rest, h => by
    rw [List.mem_cons] at h
    cases hrest : lastIdxOf? rest v with
    | some k => exact ⟨k + 1, by rw [lastIdxOf?, hrest]⟩
    | none =>
      have hx : v = x := by
        rcases h with h | h
        · exact h
        · rcases lastIdxOf?_of_mem h with ⟨i, hi⟩
          rw [hi] at hrest
          cases hrest
      exact ⟨0, by rw [lastIdxOf?, hrest, if_pos hx.symm]⟩

/-- A name with a `lastIdxOf?` index is a member. -/
theorem lastIdxOf?_mem {v : String} {xs : List String} {i : Nat}
    (h : lastIdxOf? xs v = some i) : v ∈ xs := by
  have hlt := lastIdxOf?_lt h
  have hg := lastIdxOf?_getD h
  have : xs.getD i "" ∈ xs := by
    rw [List.getD_eq_getElem?_getD, List.getElem?_eq_getElem hlt]
    exact List.getElem_mem hlt
  rwa [hg] at this

/-- Setting inside the range rewrites the addressed cell. -/
theorem getD_set_self {α : Type} : ∀ (l : List α) (i : Nat) (a d : α),
    i < l.length → (l.set i a).getD i d = a
  | [], i, a, d, h => by simp at h
  | x :: xs, 0, a, d, h => rfl
  | x :: xs, i + 1, a, d, h =>
    getD_set_self xs i a d (Nat.lt_of_succ_lt_succ h)

/-- Setting never changes other cells. -/
theorem getD_set_ne {α : Type} : ∀ (l : List α) (i i' : Nat) (a d : α),
    i ≠ i' → (l.set i a).getD i' d = l.getD i' d
  | [], i, i', a, d, h => rfl
  | x :: xs, 0, 0, a, d, h => absurd rfl h
  | x :: xs, 0, i' + 1, a, d, h => rfl
  | x :: xs, i + 1, 0, a, d, h => rfl
  | x :: xs, i + 1, i' + 1, a, d, h =>
    getD_set_ne xs i i' a d (fun hc => h (by rw [hc]))

/-- Reading past the end yields the default. -/
theorem getD_oob {α : Type} : ∀ (l : List α) (i : Nat) (d : α),
    l.length ≤ i → l.getD i d = d
  | [], i, d, h => by cases i <;> rfl
  | x :: xs, 0, d, h => by simp at h
  | x :: xs, i + 1, d, h => getD_oob xs i d (Nat.le_of_succ_le_succ h)

/-- An in-range `getD` is a member of the list. -/
theorem getD_mem {α : Type} : ∀ (l : List α) (i : Nat) (d : α),
    i < l.length → l.getD i d ∈ l
  | [], i, d, h => by simp at h
  | x :: xs, 0, d, h => List.mem_cons_self x xs
  | x :: xs, i + 1, d, h =>
    List.mem_cons_of_mem x (getD_mem xs i d (Nat.lt_of_succ_lt_succ h))

/-- `getD` on a replicated list. -/
theorem getD_replicate {α : Type} : ∀ (n i : Nat) (a d : α),
    (List.replicate n a).getD i d = if i < n then a else d
  | 0, i, a, d => by cases i <;> rfl
  | n + 1, 0, a, d => by simp
  | n + 1, i + 1, a, d => by
    rw [List.replicate_succ]
    show (List.replicate n a).getD i d = _
    rw [getD_replicate n i a d]
    simp [Nat.succ_lt_succ_iff]

/-- The zero matrix has shape `(n, n)`. -/
theorem matrixShaped_zero (n : Nat) : MatrixShaped n (zeroMatrix n) := by
  constructor
  · simp [zeroMatrix]
  · intro row hrow
    rw [zeroMatrix, List.mem_replicate] at hrow
    rw [hrow.2]
    simp

/-- Every entry of the zero matrix is clear. -/
theorem getEntry_zero (n i j : Nat) : getEntry (zeroMatrix n) i j = false := by
  unfold getEntry zeroMatrix
  rw [getD_replicate]
  by_cases hi : i < n
  · rw [if_pos hi, getD_replicate]
    by_cases hj : j < n
    · rw [if_pos hj]
    · rw [if_neg hj]
  · rw [if_neg hi]
    cases j <;> rfl

/-- Setting past the end leaves the list unchanged. -/
theorem set_oob {α : Type} : ∀ (l : List α) (i : Nat) (a : α),
    l.length ≤ i → l.set i a = l
  | [], i, a, h => rfl
  | x :: xs, 0, a, h => by simp at h
  | x :: xs, i + 1, a, h => by
    show x :: xs.set i a = x :: xs
    rw [set_oob xs i a (Nat.le_of_succ_le_succ h)]

/-- `setEntry` preserves the matrix shape. -/
theorem matrixShaped_setEntry {n : Nat} {m : List (List Bool)} (i j : Nat)
    (h : MatrixShaped n m) : MatrixShaped n (setEntry m i j) := by
  obtain ⟨hlen, hrow⟩ := h
  by_cases hi : i < m.length
  · constructor
    · rw [setEntry, List.length_set, hlen]
    · intro row hmem
      rw [setEntry] at hmem
      rcases List.mem_or_eq_of_mem_set hmem with hmem' | heq
      · exact hrow row hmem'
      · subst heq
        rw [List.length_set]
        exact hrow _ (getD_mem m i [] hi)
  · rw [setEntry, set_oob m i _ (Nat.le_of_not_lt hi)]
    exact ⟨hlen, hrow⟩

/-- Out-of-range entries of a shaped matrix are clear. -/
theorem getEntry_oob {n : Nat} {m : List (List Bool)} (h : MatrixShaped n m)
    {i j : Nat} (hij : n ≤ i ∨ n ≤ j) : getEntry m i j = false := by
  obtain ⟨hlen, hrow⟩ := h
  unfold getEntry
  rcases hij with hi | hj
  · rw [getD_oob m i [] (by omega)]
    cases j <;> rfl
  · by_cases hi : i < m.length
    · rw [getD_oob _ j false (by rw [hrow _ (getD_mem m i [] hi)]; exact hj)]
    · rw [getD_oob m i [] (Nat.le_of_not_lt hi)]
      cases j <;> rfl

/-- Entry characterisation of a single `setEntry` write at in-range indices. -/
theorem getEntry_setEntry {n : Nat} {m : List (List Bool)} (h : MatrixShaped n m)
    {i j : Nat} (hi : i < n) (hj : j < n) (i' j' : Nat) :
    (getEntry (setEntry m i j) i' j' = true ↔
      (i = i' ∧ j = j') ∨ getEntry m i' j' = true) := by
  obtain ⟨hlen, hrow⟩ := h
  by_cases hi' : i' < n
  · by_cases hj' : j' < n
    · by_cases hii : i = i'
      · subst hii
        have hrowlen : (m.getD i []).length = n := hrow _ (getD_mem m i [] (by omega))
        have hgrow : (setEntry m i j).getD i [] = (m.getD i []).set j true := by
          rw [setEntry]
          exact getD_set_self m i _ [] (by omega)
        unfold getEntry
        rw [hgrow]
        by_cases hjj : j = j'
        · subst hjj
          rw [getD_set_self _ j true false (by omega)]
          simp
        · rw [getD_set_ne _ j j' true false hjj]
          constructor
          · intro hb
            exact Or.inr hb
          · rintro (⟨_, hc⟩ | hb)
            · exact absurd hc hjj
            · exact hb
      · have hgrow : (setEntry m i j).getD i' [] = m.getD i' [] := by
          rw [setEntry]
          exact getD_set_ne m i i' _ [] hii
        unfold getEntry
        rw [hgrow]
        constructor
        · intro hb
          exact Or.inr hb
        · rintro (⟨hc, _⟩ | hb)
          · exact absurd hc hii
          · exact hb
    · have h1 : getEntry (setEntry m i j) i' j' = false :=
        getEntry_oob (matrixShaped_setEntry i j ⟨hlen, hrow⟩) (Or.inr (Nat.le_of_not_lt hj'))
      have h2 : getEntry m i' j' = false :=
        getEntry_oob ⟨hlen, hrow⟩ (Or.inr (Nat.le_of_not_lt hj'))
      rw [h1, h2]
      constructor
      · intro hc
        cases hc
      · rintro (⟨_, hc⟩ | hc)
        · omega
        · cases hc
  · have h1 : getEntry (setEntry m i j) i' j' = false :=
      getEntry_oob (matrixShaped_setEntry i j ⟨hlen, hrow⟩) (Or.inl (Nat.le_of_not_lt hi'))
    have h2 : getEntry m i' j' = false :=
      getEntry_oob ⟨hlen, hrow⟩ (Or.inl (Nat.le_of_not_lt hi'))
    rw [h1, h2]
    constructor
    · intro hc
      cases hc
    · rintro (⟨hc, _⟩ | hc)
      · omega
      · cases hc

/-- The parent loop preserves the matrix shape. -/
theorem matrixShaped_foldParents {n : Nat} {vars : List String} {j : Nat} :
    ∀ (ps : List String) (m : List (List Bool)), MatrixShaped n m →
      MatrixShaped n (ps.foldl (setParent vars j) m)
  | [], m, h => h
  | p :: ps, m, h => by
    rw [List.foldl_cons]
    apply matrixShaped_foldParents ps
    unfold setParent
    cases lastIdxOf? vars p with
    | some i => exact matrixShaped_setEntry i j h
    | none => exact h

/-- The target loop preserves the matrix shape. -/
theorem matrixShaped_foldTargets {n : Nat} {vars : List String} :
    ∀ (D : List (String × List String)) (m : List (List Bool)), MatrixShaped n m →
      MatrixShaped n (D.foldl (addTargetRow vars) m)
  | [], m, h => h
  | td :: D, m, h => by
    rw [List.foldl_cons]
    apply matrixShaped_foldTargets D
    unfold addTargetRow
    cases lastIdxOf? vars td.1 with
    | some k => exact matrixShaped_foldParents td.2 m h
    | none => exact h

/-- The matrix built by `from_dependencies` has shape `(n, n)`. -/
theorem matrixShaped_depAdj (D : List (String × List String)) (vars : List String) :
    MatrixShaped vars.length (depAdj D vars) :=
  matrixShaped_foldTargets D (zeroMatrix vars.length) (matrixShaped_zero vars.length)

/-- Entry characterisation of the parent loop. -/
theorem getEntry_foldParents {vars : List String} {j : Nat} (hj : j < vars.length) :
    ∀ (ps : List String) (m : List (List Bool)), MatrixShaped vars.length m →
      ∀ i' j', (getEntry (ps.foldl (setParent vars j) m) i' j' = true ↔
        getEntry m i' j' = true ∨
          (j' = j ∧ ∃ p ∈ ps, lastIdxOf? vars p = some i'))
  | [], m, h, i', j' => by simp
  | p :: ps, m, h, i', j' => by
    rw [List.foldl_cons]
    cases hp : lastIdxOf? vars p with
    | none =>
      have hstep : setParent vars j m p = m := by
        unfold setParent
        rw [hp]
      rw [hstep, getEntry_foldParents hj ps m h i' j']
      constructor
      · rintro (hm | ⟨hjj, q, hq, hqi⟩)
        · exact Or.inl hm
        · exact Or.inr ⟨hjj, q, List.mem_cons_of_mem p hq, hqi⟩
      · rintro (hm | ⟨hjj, q, hq, hqi⟩)
        · exact Or.inl hm
        · rcases List.mem_cons.mp hq with rfl | hq'
          · rw [hp] at hqi
            cases hqi
          · exact Or.inr ⟨hjj, q, hq', hqi⟩
    | some i =>
      have hi : i < vars.length := lastIdxOf?_lt hp
      have hstep : setParent vars j m p = setEntry m i j := by
        unfold setParent
        rw [hp]
      rw [hstep,
        getEntry_foldParents hj ps (setEntry m i j) (matrixShaped_setEntry i j h) i' j',
        getEntry_setEntry h hi hj i' j']
      constructor
      · rintro ((⟨rfl, rfl⟩ | hm) | ⟨hjj, q, hq, hqi⟩)
        · exact Or.inr ⟨rfl, p, List.mem_cons_self p ps, hp⟩
        · exact Or.inl hm
        · exact Or.inr ⟨hjj, q, List.mem_cons_of_mem p hq, hqi⟩
      · rintro (hm | ⟨rfl, q, hq, hqi⟩)
        · exact Or.inl (Or.inr hm)
        · rcases List.mem_cons.mp hq with rfl | hq'
          · rw [hp] at hqi
            cases hqi
            exact Or.inl (Or.inl ⟨rfl, rfl⟩)
          · exact Or.inr ⟨rfl, q, hq', hqi⟩

/-- Entry characterisation of the target loop. -/
theorem getEntry_foldTargets {vars : List String} :
    ∀ (D : List (String × List String)) (m : List (List Bool)),
      MatrixShaped vars.length m →
      ∀ i' j', (getEntry (D.foldl (addTargetRow vars) m) i' j' = true ↔
        getEntry m i' j' = true ∨
          ∃ td ∈ D, lastIdxOf? vars td.1 = some j' ∧
            ∃ p ∈ td.2, lastIdxOf? vars p = some i')
  | [], m, h, i', j' => by simp
  | td :: D, m, h, i', j' => by
    rw [List.foldl_cons]
    cases ht : lastIdxOf? vars td.1 with
    | none =>
      have hstep : addTargetRow vars m td = m := by
        unfold addTargetRow
        rw [ht]
      rw [hstep, getEntry_foldTargets D m h i' j']
      constructor
      · rintro (hm | ⟨q, hq, hqj, hp⟩)
        · exact Or.inl hm
        · exact Or.inr ⟨q, List.mem_cons_of_mem td hq, hqj, hp⟩
      · rintro (hm | ⟨q, hq, hqj, hp⟩)
        · exact Or.inl hm
        · rcases List.mem_cons.mp hq with rfl | hq'
          · rw [ht] at hqj
            cases hqj
          · exact Or.inr ⟨q, hq', hqj, hp⟩
    | some j =>
      have hjlt : j < vars.length := lastIdxOf?_lt ht
      have hstep : addTargetRow vars m td = td.2.foldl (setParent vars j) m := by
        unfold addTargetRow
        rw [ht]
      rw [hstep,
        getEntry_foldTargets D _ (matrixShaped_foldParents td.2 m h) i' j',
        getEntry_foldParents hjlt td.2 m h i' j']
      constructor
      · rintro ((hm | ⟨rfl, p, hp, hpi⟩) | ⟨q, hq, hqj, hp⟩)
        · exact Or.inl hm
        · exact Or.inr ⟨td, List.mem_cons_self td D, ht, p, hp, hpi⟩
        · exact Or.inr ⟨q, List.mem_cons_of_mem td hq, hqj, hp⟩
      · rintro (hm | ⟨q, hq, hqj, hp⟩)
        · exact Or.inl (Or.inl hm)
        · rcases List.mem_cons.mp hq with rfl | hq'
          · rw [ht] at hqj
            cases hqj
            exact Or.inl (Or.inr ⟨rfl, hp⟩)
          · exact Or.inr ⟨q, hq', hqj, hp⟩

/-- Entry characterisation of the full `from_dependencies` matrix. -/
theorem getEntry_depAdj (D : List (String × List String)) (vars : List String)
    (i j : Nat) :
    (getEntry (depAdj D vars) i j = true ↔
      ∃ td ∈ D, lastIdxOf? vars td.1 = some j ∧
        ∃ p ∈ td.2, lastIdxOf? vars p = some i) := by
  unfold depAdj
  rw [getEntry_foldTargets D (zeroMatrix vars.length) (matrixShaped_zero vars.length) i j,
    getEntry_zero]
  simp

/-- `from_dependencies` always succeeds, with the chosen variable list and the
built adjacency matrix. -/
theorem from_dependencies_ok (D : List (String × List String))
    (v : Option (List String)) :
    CausalGraph.from_dependencies D v =
      Except.ok ⟨depVars D v, depAdj D (depVars D v), []⟩ := by
  unfold CausalGraph.from_dependencies CausalGraph.mk?
  rw [if_pos (matrixShaped_depAdj D (depVars D v))]

/-- Membership in the row-major edge list of a graph. -/
theorem mem_get_edges {g : CausalGraph} {p c : String} :
    ((p, c) ∈ g.get_edges ↔ ∃ i j, i < g.variables'.length ∧
      j < g.variables'.length ∧ getEntry g.adjacency_matrix i j = true ∧
      g.variables'.getD i "" = p ∧ g.variables'.getD j "" = c) := by
  unfold CausalGraph.get_edges
  simp only [List.mem_flatMap, List.mem_filterMap, List.mem_range,
    Option.ite_none_right_eq_some, Option.some.injEq, Prod.mk.injEq]
  constructor
  · rintro ⟨i, hi, j, hj, hg, hp, hc⟩
    exact ⟨i, j, hi, hj, hg, hp, hc⟩
  · rintro ⟨i, j, hi, hj, hg, hp, hc⟩
    exact ⟨i, hi, j, hj, hg, hp, hc⟩

/-- Membership in the parent column list of `to_dependencies`. -/
theorem mem_colParents {g : CausalGraph} {j : Nat} {p : String} :
    (p ∈ colParents g j ↔ ∃ i, i < g.variables'.length ∧
      getEntry g.adjacency_matrix i j = true ∧ g.variables'.getD i "" = p) := by
  unfold colParents
  simp only [List.mem_filterMap, List.mem_range, Option.ite_none_right_eq_some,
    Option.some.injEq]

/-- Edge content of the reconstructed dependency mapping, in terms of the
adjacency matrix. -/
theorem memDep_to_dependencies {g : CausalGraph} {t p : String} :
    (memDep g.to_dependencies t p ↔ ∃ i j, i < g.variables'.length ∧
      j < g.variables'.length ∧ getEntry g.adjacency_matrix i j = true ∧
      g.variables'.getD i "" = p ∧ g.variables'.getD j "" = t) := by
  unfold memDep CausalGraph.to_dependencies
  constructor
  · rintro ⟨ps, hmem, hp⟩
    rw [List.mem_filterMap] at hmem
    obtain ⟨j, hj, heq⟩ := hmem
    rw [List.mem_range] at hj
    by_cases he : (colParents g j).isEmpty
    · rw [if_pos he] at heq
      cases heq
    · rw [if_neg he] at heq
      rw [Option.some.injEq, Prod.mk.injEq] at heq
      obtain ⟨ht, hps⟩ := heq
      rw [← hps] at hp
      obtain ⟨i, hi, hg, hpi⟩ := mem_colParents.mp hp
      exact ⟨i, j, hi, hj, hg, hpi, ht⟩
  · rintro ⟨i, j, hi, hj, hg, hp, ht⟩
    have hpmem : p ∈ colParents g j := mem_colParents.mpr ⟨i, hi, hg, hp⟩
    have hne : ¬ ((colParents g j).isEmpty = true) := by
      intro habs
      rw [List.isEmpty_iff] at habs
      rw [habs] at hpmem
      exact absurd hpmem (List.not_mem_nil p)
    refine ⟨colParents g j, ?_, hpmem⟩
    rw [List.mem_filterMap]
    refine ⟨j, List.mem_range.mpr hj, ?_⟩
    rw [if_neg hne, ht]

/-- Membership in the inferred variable list equals membership in the union of
keys and parents of the mapping. -/
theorem mem_depVars_none {D : List (String × List String)} {x : String} :
    x ∈ depVars D none ↔ x ∈ allVarsOf D := by
  unfold depVars
  rw [(List.perm_insertionSort _ _).mem_iff, List.mem_dedup]

/-- A mapping key occurs among the mapping's names. -/
theorem mem_allVarsOf_key {D : List (String × List String)} {t : String}
    {ps : List String} (h : (t, ps) ∈ D) : t ∈ allVarsOf D := by
  unfold allVarsOf
  exact List.mem_append_left _ (List.mem_map.mpr ⟨(t, ps), h, rfl⟩)

/-- A listed parent occurs among the mapping's names. -/
theorem mem_allVarsOf_parent {D : List (String × List String)} {t p : String}
    {ps : List String} (h : (t, ps) ∈ D) (hp : p ∈ ps) : p ∈ allVarsOf D := by
  unfold allVarsOf
  apply List.mem_append_right
  rw [List.mem_flatten]
  exact ⟨ps, List.mem_map.mpr ⟨(t, ps), h, rfl⟩, hp⟩

/-- C2: converting a dependency mapping to a graph with inferred variable
ordering and converting back reproduces the mapping's edge content exactly:
a parent `p` is recorded for a target `t` in the reconstruction exactly when
some entry for `t` in the original mapping lists `p`. -/
theorem c2_round_trip (D : List (String × List String)) :
    ∃ g, CausalGraph.from_dependencies D none = Except.ok g ∧
      ∀ t p, (memDep g.to_dependencies t p ↔ memDep D t p) := by
  refine ⟨⟨depVars D none, depAdj D (depVars D none), []⟩,
    from_dependencies_ok D none, ?_⟩
  intro t p
  rw [memDep_to_dependencies]
  show (∃ i j, i < (depVars D none).length ∧ j < (depVars D none).length ∧
      getEntry (depAdj D (depVars D none)) i j = true ∧
      (depVars D none).getD i "" = p ∧ (depVars D none).getD j "" = t) ↔ _
  constructor
  · rintro ⟨i, j, hi, hj, hg, hp, ht⟩
    rw [getEntry_depAdj] at hg
    obtain ⟨⟨t1, ps1⟩, htd, htj, p1, hp1, hpi⟩ := hg
    have ht1 : t1 = t := by
      have := lastIdxOf?_getD htj
      rw [this] at ht
      exact ht
    have hp1' : p1 = p := by
      have := lastIdxOf?_getD hpi
      rw [this] at hp
      exact hp
    subst ht1
    subst hp1'
    exact ⟨ps1, htd, hp1⟩
  · rintro ⟨ps, hmem, hp⟩
    obtain ⟨j, hjx⟩ := lastIdxOf?_of_mem (mem_depVars_none.mpr (mem_allVarsOf_key hmem))
    obtain ⟨i, hix⟩ :=
      lastIdxOf?_of_mem (mem_depVars_none.mpr (mem_allVarsOf_parent hmem hp))
    exact ⟨i, j, lastIdxOf?_lt hix, lastIdxOf?_lt hjx,
      (getEntry_depAdj D (depVars D none) i j).mpr ⟨(t, ps), hmem, hjx, p, hp, hix⟩,
      lastIdxOf?_getD hix, lastIdxOf?_getD hjx⟩

/-- C8: constructing a graph whose matrix shape disagrees with the variable
count fails with an error, and every successfully constructed graph carries
exactly the supplied variables and matrix, with the shape invariant holding. -/
theorem c8_shape_validation :
    (∀ vs adj, ¬ MatrixShaped vs.length adj →
      ∃ e, CausalGraph.mk? vs adj = Except.error e) ∧
    (∀ vs adj g, CausalGraph.mk? vs adj = Except.ok g →
      g.variables' = vs ∧ g.adjacency_matrix = adj ∧ MatrixShaped vs.length adj) := by
  constructor
  · intro vs adj h
    unfold CausalGraph.mk?
    rw [if_neg h]
    exact ⟨_, rfl⟩
  · intro vs adj g h
    unfold CausalGraph.mk? at h
    by_cases hs : MatrixShaped vs.length adj
    · rw [if_pos hs] at h
      rw [Except.ok.injEq] at h
      rw [← h]
      exact ⟨rfl, rfl, hs⟩
    · rw [if_neg hs] at h
      cases h

/-- Witness for C8: a ragged matrix is rejected, a square one accepted. -/
theorem c8_witness :
    (∃ e, CausalGraph.mk? ["a"] [] = Except.error e) ∧
    ((⟨["a"], [[true]], []⟩ : CausalGraph).variables' = ["a"] ∧
      (⟨["a"], [[true]], []⟩ : CausalGraph).adjacency_matrix = [[true]] ∧
      MatrixShaped (["a"] : List String).length [[true]]) :=
  ⟨c8_shape_validation.1 ["a"] [] (by decide),
   c8_shape_validation.2 ["a"] [[true]] ⟨["a"], [[true]], []⟩ rfl⟩

/-- C10: with an explicit variable list, `from_dependencies` never fails, and
the resulting graph holds exactly the mapping's edges whose two endpoints both
occur in the supplied list. -/
theorem c10_explicit_variables (D : List (String × List String)) (vs : List String) :
    ∃ g, CausalGraph.from_dependencies D (some vs) = Except.ok g ∧
      ∀ p t, ((p, t) ∈ g.get_edges ↔ memDep D t p ∧ p ∈ vs ∧ t ∈ vs) := by
  refine ⟨⟨vs, depAdj D vs, []⟩, from_dependencies_ok D (some vs), ?_⟩
  intro p t
  rw [mem_get_edges]
  show (∃ i j, i < vs.length ∧ j < vs.length ∧
      getEntry (depAdj D vs) i j = true ∧
      vs.getD i "" = p ∧ vs.getD j "" = t) ↔ _
  constructor
  · rintro ⟨i, j, hi, hj, hg, hp, ht⟩
    rw [getEntry_depAdj] at hg
    obtain ⟨⟨t1, ps1⟩, htd, htj, p1, hp1, hpi⟩ := hg
    have ht1 : t1 = t := by
      have := lastIdxOf?_getD htj
      rw [this] at ht
      exact ht
    have hp1' : p1 = p := by
      have := lastIdxOf?_getD hpi
      rw [this] at hp
      exact hp
    subst ht1
    subst hp1'
    exact ⟨⟨ps1, htd, hp1⟩, lastIdxOf?_mem hpi, lastIdxOf?_mem htj⟩
  · rintro ⟨⟨ps, hmem, hp⟩, hpv, htv⟩
    obtain ⟨i, hix⟩ := lastIdxOf?_of_mem hpv
    obtain ⟨j, hjx⟩ := lastIdxOf?_of_mem htv
    exact ⟨i, j, lastIdxOf?_lt hix, lastIdxOf?_lt hjx,
      (getEntry_depAdj D vs i j).mpr ⟨(t, ps), hmem, hjx, p, hp, hix⟩,
      lastIdxOf?_getD hix, lastIdxOf?_getD hjx⟩

/-- A successful dict lookup comes from an entry of the dict. -/
theorem lookupDep_mem : ∀ {deps : List (String × List String)} {t : String}
    {v : List String}, lookupDep deps t = some v → (t, v) ∈ deps
  | [], t, v, h => by simp [lookupDep] at h
  | (k, w) :: rest, t, v, h => by
    rw [lookupDep] at h
    by_cases hk : k = t
    · rw [if_pos hk] at h
      rw [Option.some.injEq] at h
      subst hk
      subst h
      exact List.mem_cons_self _ _
    · rw [if_neg hk] at h
      exact List.mem_cons_of_mem _ (lookupDep_mem h)

/-- Entries after an in-place update are old entries or the updated one. -/
theorem mem_updateDep : ∀ {deps : List (String × List String)} {t a : String}
    {nv b : List String}, (a, b) ∈ updateDep deps t nv →
      (a, b) ∈ deps ∨ (a = t ∧ b = nv)
  | [], t, a, nv, b, h => by simp [updateDep] at h
  | (k, w) :: rest, t, a, nv, b, h => by
    rw [updateDep] at h
    by_cases hk : k = t
    · rw [if_pos hk] at h
      rcases List.mem_cons.mp h with heq | hmem
      · rw [Prod.mk.injEq] at heq
        exact Or.inr ⟨heq.1.trans hk, heq.2⟩
      · exact Or.inl (List.mem_cons_of_mem _ hmem)
    · rw [if_neg hk] at h
      rcases List.mem_cons.mp h with heq | hmem
      · rw [heq]
        exact Or.inl (List.mem_cons_self _ _)
      · rcases mem_updateDep hmem with h1 | h2
        · exact Or.inl (List.mem_cons_of_mem _ h1)
        · exact Or.inr h2

/-- The self-reference filter of `_add_dependency` removes the target. -/
theorem target_not_mem_filtered (ds : List String) (target : String) :
    target ∉ ds.filter (fun d => decide (d ≠ target)) := by
  intro h
  rw [List.mem_filter] at h
  have := h.2
  simp at this

/-- `_add_dependency` preserves the self-free invariant. -/
theorem selfFree_addDependency {deps : List (String × List String)}
    {target : String} {ds : List String} (h : SelfFree deps) :
    SelfFree (addDependency deps target ds) := by
  unfold addDependency
  by_cases he : ((ds.filter (fun d => decide (d ≠ target))).isEmpty = true)
  · rw [if_pos he]
    exact h
  · rw [if_neg he]
    cases hl : lookupDep deps target with
    | some old =>
      intro t ps hmem hps
      rcases mem_updateDep hmem with hmem' | ⟨h1, h2⟩
      · exact h t ps hmem' hps
      · subst h1
        subst h2
        rw [List.mem_dedup, List.mem_append] at hps
        rcases hps with hold | hfil
        · exact h t old (lookupDep_mem hl) hold
        · exact target_not_mem_filtered ds t hfil
    | none =>
      intro t ps hmem hps
      rw [List.mem_append] at hmem
      rcases hmem with hmem' | hsing
      · exact h t ps hmem' hps
      · rw [List.mem_singleton, Prod.mk.injEq] at hsing
        obtain ⟨rfl, rfl⟩ := hsing
        exact target_not_mem_filtered ds t hps

/-- `visit_Call` preserves the self-free invariant. -/
theorem selfFree_appendCallUpdate (filt : Option (List String))
    (deps : List (String × List String)) (f : PyExpr) (args : List PyExpr)
    (h : SelfFree deps) : SelfFree (appendCallUpdate filt deps f args) := by
  cases f with
  | name id => exact h
  | const => exact h
  | binop l r => exact h
  | listLit es => exact h
  | call f2 args2 => exact h
  | attr v a =>
    cases v with
    | name owner =>
      simp only [appendCallUpdate]
      by_cases ha : a = "append"
      · rw [if_pos ha]
        by_cases hc : (filt = none ∨ owner ∈ filterElems filt)
        · rw [if_pos hc]
          exact selfFree_addDependency h
        · rw [if_neg hc]
          exact h
      · rw [if_neg ha]
        exact h
    | attr v2 a2 => exact h
    | call f2 args2 => exact h
    | binop l r => exact h
    | const => exact h
    | listLit es => exact h

mutual

/-- Expression traversal preserves the self-free invariant. -/
theorem selfFree_visitExpr (filt : Option (List String)) :
    ∀ (deps : List (String × List String)) (e : PyExpr), SelfFree deps →
      SelfFree (visitExpr filt deps e)
  | deps, .name _, h => h
  | deps, .const, h => h
  | deps, .attr v _, h => selfFree_visitExpr filt deps v h
  | deps, .binop l r, h =>
    selfFree_visitExpr filt _ r (selfFree_visitExpr filt deps l h)
  | deps, .listLit es, h => selfFree_visitExprList filt deps es h
  | deps, .call f args, h =>
    selfFree_visitExprList filt _ args
      (selfFree_visitExpr filt _ f (selfFree_appendCallUpdate filt deps f args h))

/-- List traversal preserves the self-free invariant. -/
theorem selfFree_visitExprList (filt : Option (List String)) :
    ∀ (deps : List (String × List String)) (es : List PyExpr), SelfFree deps →
      SelfFree (visitExprList filt deps es)
  | deps, [], h => h
  | deps, e :: es, h =>
    selfFree_visitExprList filt _ es (selfFree_visitExpr filt deps e h)

end

/-- `generic_visit` on an assignment preserves the self-free invariant. -/
theorem selfFree_genericVisitAssign (filt : Option (List String))
    (deps : List (String × List String)) (targets : List PyExpr)
    (value : PyExpr) (h : SelfFree deps) :
    SelfFree (genericVisitAssign filt deps targets value) :=
  selfFree_visitExpr filt _ value (selfFree_visitExprList filt deps targets h)

/-- Statement dispatch preserves the self-free invariant. -/
theorem selfFree_visitStmt (filt : Option (List String))
    (deps : List (String × List String)) (s : PyStmt) (h : SelfFree deps) :
    SelfFree (visitStmt filt deps s) := by
  cases s with
  | exprStmt e => exact selfFree_visitExpr filt deps e h
  | assign targets value =>
    cases targets with
    | nil => exact selfFree_genericVisitAssign filt deps [] value h
    | cons tgt rest =>
      show SelfFree (match targetNameOf tgt with
        | none => genericVisitAssign filt deps (tgt :: rest) value
        | some target_name =>
          if truthyFilter filt ∧ target_name ∉ filterElems filt then
            genericVisitAssign filt deps (tgt :: rest) value
          else
            genericVisitAssign filt
              (addDependency deps target_name (getReferencedNames filt value))
              (tgt :: rest) value)
      cases targetNameOf tgt with
      | none => exact selfFree_genericVisitAssign filt deps _ value h
      | some tn =>
        show SelfFree (if truthyFilter filt ∧ tn ∉ filterElems filt then
            genericVisitAssign filt deps (tgt :: rest) value
          else
            genericVisitAssign filt
              (addDependency deps tn (getReferencedNames filt value))
              (tgt :: rest) value)
        by_cases hc : (truthyFilter filt ∧ tn ∉ filterElems filt)
        · rw [if_pos hc]
          exact selfFree_genericVisitAssign filt deps _ value h
        · rw [if_neg hc]
          exact selfFree_genericVisitAssign filt _ _ value (selfFree_addDependency h)

/-- The dict built by a whole traversal never lists a target among its own
parents. -/
theorem selfFree_visitModule (filt : Option (List String)) (stmts : List PyStmt) :
    SelfFree (visitModule filt stmts) := by
  have haux : ∀ (ss : List PyStmt) (deps : List (String × List String)),
      SelfFree deps → SelfFree (ss.foldl (visitStmt filt) deps) := by
    intro ss
    induction ss with
    | nil => intro deps h; exact h
    | cons s ss ih =>
      intro deps h
      rw [List.foldl_cons]
      exact ih _ (selfFree_visitStmt filt deps s h)
  exact haux stmts [] (by intro t ps hmem; simp at hmem)

/-- Split a conjunction of boolean truths. -/
theorem bool_and_split {a b : Bool} (h : (a && b) = true) : a = true ∧ b = true := by
  simp at h
  exact h

/-- A call whose head is not `append`-on-a-name records nothing regardless of
the filter. -/
theorem appendCallUpdate_inert (filt : Option (List String))
    (deps : List (String × List String)) (f : PyExpr) (args : List PyExpr)
    (hf : callHeadNoAppend f = true) :
    appendCallUpdate filt deps f args = deps := by
  cases f with
  | name id => rfl
  | const => rfl
  | binop l r => rfl
  | listLit es => rfl
  | call f2 args2 => rfl
  | attr v a =>
    cases v with
    | name owner =>
      have ha : a ≠ "append" := by
        have := hf
        rw [callHeadNoAppend] at this
        exact of_decide_eq_true this
      simp only [appendCallUpdate]
      rw [if_neg ha]
    | attr v2 a2 => rfl
    | call f2 args2 => rfl
    | binop l r => rfl
    | const => rfl
    | listLit es => rfl

mutual

/-- On expressions free of `append` calls the visitor treats the empty filter
set exactly like no filter. -/
theorem visitExpr_empty_filter :
    ∀ (deps : List (String × List String)) (e : PyExpr), exprNoAppend e = true →
      visitExpr (some []) deps e = visitExpr none deps e
  | deps, .name _, h => rfl
  | deps, .const, h => rfl
  | deps, .attr v _, h => visitExpr_empty_filter deps v h
  | deps, .binop l r, h => by
    have hl : exprNoAppend l = true := (bool_and_split h).1
    have hr : exprNoAppend r = true := (bool_and_split h).2
    show visitExpr (some []) (visitExpr (some []) deps l) r =
      visitExpr none (visitExpr none deps l) r
    rw [visitExpr_empty_filter deps l hl]
    exact visitExpr_empty_filter _ r hr
  | deps, .listLit es, h => visitExprList_empty_filter deps es h
  | deps, .call f args, h => by
    have h1 : (callHeadNoAppend f && exprNoAppend f) = true :=
      (bool_and_split h).1
    have hhead : callHeadNoAppend f = true := (bool_and_split h1).1
    have hf : exprNoAppend f = true := (bool_and_split h1).2
    have hargs : exprListNoAppend args = true := (bool_and_split h).2
    show visitExprList (some [])
        (visitExpr (some []) (appendCallUpdate (some []) deps f args) f) args =
      visitExprList none
        (visitExpr none (appendCallUpdate none deps f args) f) args
    rw [appendCallUpdate_inert (some []) deps f args hhead,
      appendCallUpdate_inert none deps f args hhead,
      visitExpr_empty_filter deps f hf]
    exact visitExprList_empty_filter _ args hargs

/-- List version of `visitExpr_empty_filter`. -/
theorem visitExprList_empty_filter :
    ∀ (deps : List (String × List String)) (es : List PyExpr),
      exprListNoAppend es = true →
      visitExprList (some []) deps es = visitExprList none deps es
  | deps, [], h => rfl
  | deps, e :: es, h => by
    have he : exprNoAppend e = true := (bool_and_split h).1
    have hes : exprListNoAppend es = true := (bool_and_split h).2
    show visitExprList (some []) (visitExpr (some []) deps e) es =
      visitExprList none (visitExpr none deps e) es
    rw [visitExpr_empty_filter deps e he]
    exact visitExprList_empty_filter _ es hes

end

/-- `_get_referenced_names` does not filter under the empty set: truthiness
makes `some []` behave like `none`. -/
theorem getReferencedNames_empty_filter (e : PyExpr) :
    getReferencedNames (some []) e = getReferencedNames none e := rfl

/-- `generic_visit` on an assignment under the empty filter. -/
theorem genericVisitAssign_empty_filter (deps : List (String × List String))
    (targets : List PyExpr) (value : PyExpr)
    (hts : exprListNoAppend targets = true) (hv : exprNoAppend value = true) :
    genericVisitAssign (some []) deps targets value =
      genericVisitAssign none deps targets value := by
  unfold genericVisitAssign
  rw [visitExprList_empty_filter deps targets hts]
  exact visitExpr_empty_filter _ value hv

/-- On `append`-free statements the visitor treats the empty filter set
exactly like no filter. -/
theorem visitStmt_empty_filter (deps : List (String × List String))
    (s : PyStmt) (h : stmtNoAppend s = true) :
    visitStmt (some []) deps s = visitStmt none deps s := by
  cases s with
  | exprStmt e => exact visitExpr_empty_filter deps e h
  | assign targets value =>
    have hts : exprListNoAppend targets = true := (bool_and_split h).1
    have hv : exprNoAppend value = true := (bool_and_split h).2
    cases targets with
    | nil => exact genericVisitAssign_empty_filter deps [] value hts hv
    | cons tgt rest =>
      show (match targetNameOf tgt with
        | none => genericVisitAssign (some []) deps (tgt :: rest) value
        | some target_name =>
          if truthyFilter (some []) ∧ target_name ∉ filterElems (some []) then
            genericVisitAssign (some []) deps (tgt :: rest) value
          else
            genericVisitAssign (some [])
              (addDependency deps target_name (getReferencedNames (some []) value))
              (tgt :: rest) value) =
        (match targetNameOf tgt with
        | none => genericVisitAssign none deps (tgt :: rest) value
        | some target_name =>
          if truthyFilter none ∧ target_name ∉ filterElems none then
            genericVisitAssign none deps (tgt :: rest) value
          else
            genericVisitAssign none
              (addDependency deps target_name (getReferencedNames none value))
              (tgt :: rest) value)
      cases targetNameOf tgt with
      | none => exact genericVisitAssign_empty_filter deps _ value hts hv
      | some tn =>
        show (if truthyFilter (some []) ∧ tn ∉ filterElems (some []) then
            genericVisitAssign (some []) deps (tgt :: rest) value
          else
            genericVisitAssign (some [])
              (addDependency deps tn (getReferencedNames (some []) value))
              (tgt :: rest) value) =
          (if truthyFilter none ∧ tn ∉ filterElems none then
            genericVisitAssign none deps (tgt :: rest) value
          else
            genericVisitAssign none
              (addDependency deps tn (getReferencedNames none value))
              (tgt :: rest) value)
        have hfalse1 : ¬ (truthyFilter (some []) ∧ tn ∉ filterElems (some [])) := by
          intro hc
          exact absurd hc.1 (by simp [truthyFilter])
        have hfalse2 : ¬ (truthyFilter none ∧ tn ∉ filterElems none) := by
          intro hc
          exact absurd hc.1 (by simp [truthyFilter])
        rw [if_neg hfalse1, if_neg hfalse2, getReferencedNames_empty_filter]
        exact genericVisitAssign_empty_filter _ _ value hts hv

/-- On `append`-free programs the whole traversal treats the empty filter set
exactly like no filter. -/
theorem visitModule_empty_filter (stmts : List PyStmt)
    (h : ∀ s ∈ stmts, stmtNoAppend s = true) :
    visitModule (some []) stmts = visitModule none stmts := by
  have haux : ∀ (ss : List PyStmt) (deps : List (String × List String)),
      (∀ s ∈ ss, stmtNoAppend s = true) →
      ss.foldl (visitStmt (some [])) deps = ss.foldl (visitStmt none) deps := by
    intro ss
    induction ss with
    | nil => intro deps _; rfl
    | cons s ss ih =>
      intro deps hss
      rw [List.foldl_cons, List.foldl_cons,
        visitStmt_empty_filter deps s (hss s (List.mem_cons_self s ss))]
      exact ih _ (fun s2 hs2 => hss s2 (List.mem_cons_of_mem s hs2))
  exact haux stmts [] h

/-- Evaluation of scenario 3: `values = []` then `values.append(x + y)` with
filter `{values, x, y}`. -/
theorem extract_scenario3_eval :
    extract_from_string scenario3Src (some ["values", "x", "y"]) =
      Except.ok scenario3Graph := by
  have h1 : visitModule (some ["values", "x", "y"]) scenario3Src =
      [("values", ["x", "y"])] := rfl
  have h2 : List.insertionSort (fun a b => a ≤ b) ["values", "x", "y"] =
      ["values", "x", "y"] := by
    simp +decide [List.insertionSort, List.orderedInsert]
  rw [extract_from_string]
  show CausalGraph.from_dependencies
    (visitModule (some ["values", "x", "y"]) scenario3Src) _ = _
  rw [h1]
  show CausalGraph.from_dependencies _
    (some (List.insertionSort (fun a b => a ≤ b) ["values", "x", "y"])) = _
  rw [h2]
  rfl

/-- Evaluation of `x = a` under the empty filter set: assignment recording is
unfiltered and the variable ordering is inferred. -/
theorem extract_assignDemo_eval :
    extract_from_string assignDemoSrc (some []) = Except.ok assignDemoGraph := by
  rw [extract_from_string]
  show CausalGraph.from_dependencies (visitModule (some []) assignDemoSrc) none = _
  have h1 : visitModule (some []) assignDemoSrc = [("x", ["a"])] := rfl
  rw [h1, CausalGraph.from_dependencies]
  have h2 : depVars [("x", ["a"])] none = ["a", "x"] := by
    rw [depVars]
    show List.insertionSort (fun a b => a ≤ b) (allVarsOf [("x", ["a"])]).dedup = _
    have h3 : (allVarsOf [("x", ["a"])]).dedup = ["x", "a"] := by decide
    rw [h3]
    simp +decide [List.insertionSort, List.orderedInsert]
  rw [h2]
  rfl

/-- Evaluation of `values.append(x + y)` alone under the empty filter set:
the `is None` guard records nothing. -/
theorem extract_appendOnly_eval :
    extract_from_string appendOnlySrc (some []) = Except.ok gEmpty := rfl

/-- C1 (amended): extracting with a non-empty variable filter `V` yields a
graph whose every variable, and hence every edge endpoint, lies in `V`. -/
theorem c1_filter_containment (src : List PyStmt) (V : List String)
    (g : CausalGraph) (hne : V ≠ [])
    (h : extract_from_string src (some V) = Except.ok g) :
    (∀ v ∈ g.variables', v ∈ V) ∧
    (∀ e ∈ g.get_edges, e.1 ∈ V ∧ e.2 ∈ V) := by
  have htr : truthyFilter (some V) = true := by
    rw [truthyFilter]
    cases hV : V.isEmpty
    · rfl
    · rw [List.isEmpty_iff] at hV
      exact absurd hV hne
  unfold extract_from_string at h
  rw [if_pos htr, from_dependencies_ok, Except.ok.injEq] at h
  subst h
  have hmemV : ∀ v, v ∈ List.insertionSort (fun a b => a ≤ b) V → v ∈ V := by
    intro v hv
    exact (List.perm_insertionSort (fun a b => a ≤ b) V).mem_iff.mp hv
  constructor
  · intro v hv
    exact hmemV v hv
  · rintro ⟨p, c⟩ he
    rw [mem_get_edges] at he
    obtain ⟨i, j, hi, hj, _hg, hp, hc⟩ := he
    have hp2 : p ∈ List.insertionSort (fun a b => a ≤ b) V := by
      rw [← hp]
      exact getD_mem _ i "" hi
    have hc2 : c ∈ List.insertionSort (fun a b => a ≤ b) V := by
      rw [← hc]
      exact getD_mem _ j "" hj
    exact ⟨hmemV p hp2, hmemV c hc2⟩

/-- Counterexample to C1 as stated: with the empty filter set, extracting
`x = a` produces the variable `a`, which lies outside the filter. -/
theorem c1_counterexample :
    extract_from_string assignDemoSrc (some ([] : List String)) =
      Except.ok assignDemoGraph ∧
    "a" ∈ assignDemoGraph.variables' ∧ "a" ∉ ([] : List String) :=
  ⟨extract_assignDemo_eval, by decide, by decide⟩

/-- Witness for C1 at scenario 3 with filter `{values, x, y}`. -/
theorem c1_witness :
    (∀ v ∈ scenario3Graph.variables', v ∈ ["values", "x", "y"]) ∧
    (∀ e ∈ scenario3Graph.get_edges,
      e.1 ∈ ["values", "x", "y"] ∧ e.2 ∈ ["values", "x", "y"]) :=
  c1_filter_containment scenario3Src ["values", "x", "y"] scenario3Graph
    (by decide) extract_scenario3_eval

/-- C6: scenario 3, `values = []` then `values.append(x + y)` with filter
`{values, x, y}`, gives the dependency mapping `values ↦ {x, y}`: variables
`[values, x, y]` with exactly the edges `x → values` and `y → values`. -/
theorem c6_scenario3 :
    extract_from_string scenario3Src (some ["values", "x", "y"]) =
      Except.ok scenario3Graph ∧
    scenario3Graph.variables' = ["values", "x", "y"] ∧
    scenario3Graph.to_dependencies = [("values", ["x", "y"])] ∧
    scenario3Graph.get_edges = [("x", "values"), ("y", "values")] :=
  ⟨extract_scenario3_eval, rfl, rfl, rfl⟩

/-- C7: no extracted graph has a self-loop (the diagonal of the relation is
everywhere false), and `x = x + 1` with filter `{x}` yields zero edges. -/
theorem c7_no_self_loop :
    (∀ (src : List PyStmt) (filt : Option (List String)) (g : CausalGraph),
      extract_from_string src filt = Except.ok g →
      ∀ i, getEntry g.adjacency_matrix i i = false) ∧
    (extract_from_string xSelfSrc (some ["x"]) = Except.ok xSelfGraph ∧
      xSelfGraph.get_edges = []) := by
  constructor
  · intro src filt g h i
    unfold extract_from_string at h
    rw [from_dependencies_ok, Except.ok.injEq] at h
    subst h
    show getEntry (depAdj (visitModule filt src)
      (depVars (visitModule filt src)
        (if truthyFilter filt then
          some (List.insertionSort (fun a b => a ≤ b) (filterElems filt))
        else none))) i i = false
    cases hb : getEntry (depAdj (visitModule filt src)
      (depVars (visitModule filt src)
        (if truthyFilter filt then
          some (List.insertionSort (fun a b => a ≤ b) (filterElems filt))
        else none))) i i with
    | false => rfl
    | true =>
      exfalso
      rw [getEntry_depAdj] at hb
      obtain ⟨⟨t1, ps1⟩, htd, htj, p1, hp1, hpi⟩ := hb
      have e1 := lastIdxOf?_getD htj
      have e2 := lastIdxOf?_getD hpi
      have hpt : p1 = t1 := e2.symm.trans e1
      exact selfFree_visitModule filt src t1 ps1 htd (hpt ▸ hp1)
  · exact ⟨rfl, rfl⟩

/-- Witness for C7's general part at `x = x + 1` with filter `{x}`. -/
theorem c7_witness : getEntry xSelfGraph.adjacency_matrix 0 0 = false :=
  c7_no_self_loop.1 xSelfSrc (some ["x"]) xSelfGraph rfl 0

/-- C9: under the empty filter set, assignment handling and variable-order
inference behave as with no filter (for `append`-free programs the whole
extraction coincides), `x = a` still records the outside names `a` and `x`
with the ordering inferred as `[a, x]`, while an `append` call alone records
nothing because of the `is None` test. -/
theorem c9_empty_filter :
    (∀ src : List PyStmt, (∀ s ∈ src, stmtNoAppend s = true) →
      extract_from_string src (some []) = extract_from_string src none) ∧
    extract_from_string assignDemoSrc (some []) = Except.ok assignDemoGraph ∧
    assignDemoGraph.variables' = ["a", "x"] ∧
    extract_from_string appendOnlySrc (some []) = Except.ok gEmpty := by
  refine ⟨?_, extract_assignDemo_eval, rfl, extract_appendOnly_eval⟩
  intro src h
  unfold extract_from_string
  rw [visitModule_empty_filter src h]
  rfl

/-- Witness for C9's general part at the `append`-free program `x = a`. -/
theorem c9_witness :
    extract_from_string assignDemoSrc (some []) =
      extract_from_string assignDemoSrc none :=
  c9_empty_filter.1 assignDemoSrc (by decide)
